import Mathlib

/-!
# Verification of the Ziwio blockchain node's ledger core

A shallow embedding of the ledger-store, sync, broadcast-handling,
persistence and genesis logic of the node server (`blockchain-node`
sources).  JavaScript `Map`s are modelled as association lists with the
`Map` semantics (`set` of an existing key replaces its value in place,
`set` of a fresh key appends; iteration order is insertion order).
JavaScript truthiness of string-valued fields (`undefined`, `null` and
`""` are falsy) is modelled on `Option String`; numbers are `Int`
(wall-clock timestamps and cryptographic digests are carried as opaque
parameters, never inspected by the embedded logic).  The opaque `data`
payload of a transaction and the transport layer are not modelled: no
embedded operation reads them.
-/

/-- `m.get(k)` on a JS `Map` represented as an association list. -/
def jsMapGet {α β : Type} [DecidableEq α] : List (α × β) → α → Option β
  | [], _ => none
  | (k, v) :: rest, key => if k = key then some v else jsMapGet rest key

/-- `m.has(k)` on a JS `Map`. -/
def jsMapHas {α β : Type} [DecidableEq α] (m : List (α × β)) (k : α) : Bool :=
  (jsMapGet m k).isSome

/-- `m.set(k, v)` on a JS `Map`: replace in place if the key exists,
append otherwise. -/
def jsMapSet {α β : Type} [DecidableEq α] : List (α × β) → α → β → List (α × β)
  | [], key, v => [(key, v)]
  | (k, w) :: rest, key, v =>
      if k = key then (key, v) :: rest else (k, w) :: jsMapSet rest key v

/-- `new Map(entries)`: insert the entries in order into an empty map. -/
def jsMapOfEntries {α β : Type} [DecidableEq α] (entries : List (α × β)) : List (α × β) :=
  entries.foldl (fun m kv => jsMapSet m kv.1 kv.2) []

/-- `new Set(xs)`: dedup keeping the first occurrence. -/
def jsSetOfList {α : Type} [DecidableEq α] (l : List α) : List α :=
  l.foldl (fun s x => if x ∈ s then s else s ++ [x]) []

/-- JS `x || d` for an optional number: absent or `0` falls back to `d`. -/
def jsOrInt (o : Option Int) (d : Int) : Int :=
  match o with
  | none => d
  | some x => if x = 0 then d else x

/-- JS `arr.slice(0, e)`: a negative end counts from the end of the array. -/
def jsSlice {α : Type} (l : List α) (e : Int) : List α :=
  if e < 0 then l.take (((l.length : Int) + e).toNat) else l.take e.toNat

/-- Insert `x` into `l` after every leading element `y` with `le y x`:
the insertion step of a stable insertion sort. -/
def jsSortInsert {α : Type} (le : α → α → Bool) (x : α) : List α → List α
  | [] => [x]
  | y :: ys => if le y x then y :: jsSortInsert le x ys else x :: y :: ys

/-- JS `Array.prototype.sort` with a numeric comparator: a stable sort
by `le` (later-arriving elements are placed after equal ones, as the
ECMAScript specification requires of `sort`). -/
def jsSort {α : Type} (le : α → α → Bool) (l : List α) : List α :=
  l.foldl (fun acc x => jsSortInsert le x acc) []

/-- JS truthiness of an optional string field: `undefined` and `""` are falsy. -/
def strTruthy (o : Option String) : Bool :=
  match o with
  | none => false
  | some s => s ≠ ""

/-- A transaction.  `amount`, `fee`, `timestamp` are optional numbers
(the code reads them as `tx.amount || 0` etc.); the opaque `data`
payload is never read and is omitted. -/
structure Tx where
  id : Option String
  txType : Option String
  fromAddress : Option String
  toAddress : Option String
  amount : Option Int
  fee : Option Int
  timestamp : Option Int
deriving DecidableEq, Repr

/-- A block header as read by the code (`block.header?.height` etc.). -/
structure Header where
  height : Option Int
  index : Option Int
  timestamp : Option Int
  previousHash : Option String
  merkleRoot : Option String
deriving DecidableEq, Repr

/-- A block.  `hash` may be absent (the code never checks it for
presence before using it as a `Map` key). -/
structure Block where
  hash : Option String
  header : Option Header
  transactions : Option (List Tx)
  previousHash : Option String
deriving DecidableEq, Repr

/-- The node's `blockchain` state: blocks by hash, transactions by id,
the address index, the current height, the tip set and the genesis
hash. -/
structure Blockchain where
  blocks : List (Option String × Block)
  transactions : List (String × Tx)
  height : Int
  txByAddress : List (String × List String)
  tips : List (Option String)
  genesisHash : Option String
deriving DecidableEq, Repr

/-- The initial `blockchain` object before any load or genesis. -/
def emptyChain : Blockchain :=
  { blocks := [], transactions := [], height := 0
    txByAddress := [], tips := [], genesisHash := none }

/-- `block.header?.height || 0`. -/
def blockHeight (b : Block) : Int :=
  ((b.header.bind Header.height).getD 0)

/-- `storeTransaction(tx)`: no-op without a (truthy) id; otherwise store
by id and append the id to the address index of a truthy `fromAddress`,
and of a truthy `toAddress` when it differs from `fromAddress`. -/
def storeTransaction (st : Blockchain) (tx : Tx) : Blockchain :=
  match tx.id with
  | none => st
  | some i =>
    if i = "" then st
    else
      let st1 := { st with transactions := jsMapSet st.transactions i tx }
      let st2 :=
        match tx.fromAddress with
        | none => st1
        | some f =>
          if f = "" then st1
          else { st1 with txByAddress :=
                   jsMapSet st1.txByAddress f ((jsMapGet st1.txByAddress f).getD [] ++ [i]) }
      match tx.toAddress with
      | none => st2
      | some t =>
        if t = "" then st2
        else if tx.toAddress = tx.fromAddress then st2
        else { st2 with txByAddress :=
                 jsMapSet st2.txByAddress t ((jsMapGet st2.txByAddress t).getD [] ++ [i]) }

/-- `calculateBalance(address)`: fold over the address's indexed ids,
adding received amounts and subtracting sent amounts and fees. -/
def calculateBalance (st : Blockchain) (address : String) : Int :=
  let txIds := (jsMapGet st.txByAddress address).getD []
  txIds.foldl
    (fun balance txId =>
      match jsMapGet st.transactions txId with
      | none => balance
      | some tx =>
        let balance1 :=
          if tx.toAddress = some address then balance + tx.amount.getD 0 else balance
        if tx.fromAddress = some address then balance1 - tx.amount.getD 0 - tx.fee.getD 0
        else balance1)
    0

/-- `handleBlockBroadcast`: dedup by hash; otherwise store the block,
raise the height to `max(height, block.header?.height || 0)`, store the
embedded transactions in list order, and relay.  The boolean records
whether the relay fan-out (`broadcastToPeers`) was invoked. -/
def handleBlockBroadcast (st : Blockchain) (block : Block) : Blockchain × Bool :=
  if jsMapHas st.blocks block.hash then (st, false)
  else
    let st1 := { st with blocks := jsMapSet st.blocks block.hash block
                         height := max st.height (blockHeight block) }
    let st2 := (block.transactions.getD []).foldl storeTransaction st1
    (st2, true)

/-- The decoded payload of a `syncRequest`. -/
structure SyncRequest where
  lastKnownBlockHeight : Option Int
  userAddress : Option String
  requestedBlocks : Option Int
deriving DecidableEq, Repr

/-- The block list of a sync response: blocks strictly above the
effective cursor, sorted ascending by height (stable sort, as JS
`Array.prototype.sort`), truncated by `slice(0, requestedBlocks || 100)`. -/
def syncBlocks (st : Blockchain) (req : SyncRequest) : List Block :=
  let cursor := jsOrInt req.lastKnownBlockHeight 0
  let filtered := (st.blocks.map Prod.snd).filter (fun b => decide (cursor < blockHeight b))
  let sorted := jsSort (fun a b => decide (blockHeight a ≤ blockHeight b)) filtered
  jsSlice sorted (jsOrInt req.requestedBlocks 100)

/-- The decoded payload of a `syncResponse`. -/
structure SyncResponse where
  blocks : List Block
  userTransactions : List Tx
  currentHeight : Int
  currentBalances : Option String × Int
deriving DecidableEq, Repr

/-- `handleSyncRequest`: build the sync response from the ledger state;
the handler only reads the state, so the state component is returned
unchanged. -/
def handleSyncRequest (st : Blockchain) (req : SyncRequest) : Blockchain × SyncResponse :=
  let userTxIds :=
    match req.userAddress with
    | none => []
    | some a => (jsMapGet st.txByAddress a).getD []
  let userTransactions := userTxIds.filterMap (fun txId => jsMapGet st.transactions txId)
  let balance :=
    match req.userAddress with
    | none => 0
    | some a => calculateBalance st a
  (st, { blocks := syncBlocks st req
         userTransactions := userTransactions
         currentHeight := st.height
         currentBalances := (req.userAddress, balance) })

/-- The persisted snapshot document (`savedAt` is the wall clock at save
time). -/
structure Snapshot where
  blocks : List (Option String × Block)
  transactions : List (String × Tx)
  txByAddress : List (String × List String)
  height : Int
  tips : List (Option String)
  genesisHash : Option String
  savedAt : Int
deriving DecidableEq, Repr

/-- `saveBlockchain()`: serialize the tables as entry lists plus height,
tips, genesis hash and a timestamp. -/
def saveBlockchain (st : Blockchain) (now : Int) : Snapshot :=
  { blocks := st.blocks
    transactions := st.transactions
    txByAddress := st.txByAddress
    height := st.height
    tips := st.tips
    genesisHash := st.genesisHash
    savedAt := now }

/-- `loadBlockchain()` (successful path): rebuild the `Map`s from the
entry lists and the `Set` from the tip list. -/
def loadBlockchain (s : Snapshot) : Blockchain :=
  { blocks := jsMapOfEntries s.blocks
    transactions := jsMapOfEntries s.transactions
    txByAddress := jsMapOfEntries s.txByAddress
    height := s.height
    tips := jsSetOfList s.tips
    genesisHash := s.genesisHash }

/-- The genesis allocation table, in object-literal order. -/
def initialSupply : List (String × Int) :=
  [("treasury", 100000000), ("team", 20000000), ("validators", 10000000),
   ("community_rewards", 30000000), ("liquidity_pool", 40000000)]

/-- The genesis transaction for allocation bucket number `idx`. -/
def genesisTx (idx : Nat) (address : String) (amount : Int) (ts : Int) : Tx :=
  { id := some ("genesis-tx-" ++ toString idx)
    txType := some "genesis_allocation"
    fromAddress := some "genesis"
    toAddress := some address
    amount := some amount
    fee := some 0
    timestamp := some ts }

/-- The five genesis transactions, in allocation-table order. -/
def genesisTransactions (ts : Int) : List Tx :=
  initialSupply.enum.map (fun p => genesisTx p.1 p.2.1 p.2.2 ts)

/-- The genesis block.  Its hash and merkle root are SHA-256 digests of
timestamp-dependent data; they are carried as opaque parameters since
the embedded logic never inspects them. -/
def genesisBlock (h mr : String) (ts : Int) : Block :=
  { hash := some h
    header := some
      { height := some 0
        index := some 0
        timestamp := some ts
        previousHash :=
          some "0000000000000000000000000000000000000000000000000000000000000000"
        merkleRoot := some mr }
    transactions := some (genesisTransactions ts)
    previousHash :=
      some "0000000000000000000000000000000000000000000000000000000000000000" }

/-- `createGenesisBlock()`: on the empty store, store each genesis
transaction, then insert the genesis block, set height 0, add the tip
and remember the genesis hash. -/
def createGenesisBlock (h mr : String) (ts : Int) : Blockchain :=
  let st := (genesisTransactions ts).foldl storeTransaction emptyChain
  { st with blocks := jsMapSet st.blocks (some h) (genesisBlock h mr ts)
            height := 0
            tips := st.tips ++ [some h]
            genesisHash := some h }

/-- The ledger-mutating message-handler operations. -/
inductive Op where
  | txB (tx : Tx) : Op
  | blkB (b : Block) : Op
deriving DecidableEq, Repr

/-- Apply one handler's state effect. -/
def applyOp (st : Blockchain) : Op → Blockchain
  | .txB tx => storeTransaction st tx
  | .blkB b => (handleBlockBroadcast st b).1

/-- Apply a sequence of handler operations. -/
def applyOps (st : Blockchain) (ops : List Op) : Blockchain :=
  ops.foldl applyOp st

/-- A ledger state reachable from the empty store by handler operations. -/
def Reachable (st : Blockchain) : Prop :=
  ∃ ops : List Op, applyOps emptyChain ops = st

/-! ## Spec-side definitions -/

/-- The balance of `a` as the spec's words state it: the sum of `amount`
over transactions currently in the store with `toAddress == a`, minus
the sum of `amount + fee` over those with `fromAddress == a`. -/
def specBalance (st : Blockchain) (a : String) : Int :=
  ((st.transactions.filter (fun kv => decide (kv.2.toAddress = some a))).map
      (fun kv => kv.2.amount.getD 0)).sum
    - ((st.transactions.filter (fun kv => decide (kv.2.fromAddress = some a))).map
        (fun kv => kv.2.amount.getD 0 + kv.2.fee.getD 0)).sum

/-- A transaction touches address `a` when `a` is its sender or receiver. -/
def touches (a : String) (tx : Tx) : Bool :=
  decide (tx.fromAddress = some a) || decide (tx.toAddress = some a)

/-- The id under which `storeTransaction` would store `tx` (`none` when
the id is absent or empty, i.e. falsy). -/
def truthyId (tx : Tx) : Option String :=
  match tx.id with
  | none => none
  | some i => if i = "" then none else some i

/-- The (truthy) transaction ids an operation offers for storage. -/
def opIds : Op → List String
  | .txB tx => (truthyId tx).toList
  | .blkB b => (b.transactions.getD []).filterMap truthyId

/-- All transaction ids offered by a sequence of operations. -/
def allIds (ops : List Op) : List String :=
  (ops.map opIds).flatten

/-- The keys of the transaction table. -/
def storedKeys (st : Blockchain) : List String :=
  st.transactions.map Prod.fst

/-- The id list indexed under address `a`. -/
def indexedIds (st : Blockchain) (a : String) : List String :=
  (jsMapGet st.txByAddress a).getD []

/-- The ledger-store invariant used for the balance and index claims:
transaction keys are duplicate-free, the index of every nonempty
address lists exactly the keys of the stored transactions touching it
(in table order), and the empty address is never indexed. -/
def LedgerInv (st : Blockchain) : Prop :=
  (storedKeys st).Nodup ∧
  (∀ a : String, a ≠ "" →
      indexedIds st a = (st.transactions.filter (fun kv => touches a kv.2)).map Prod.fst) ∧
  indexedIds st "" = []

/-- A block whose header, or the header's height field, is absent. -/
def heightAbsent (b : Block) : Prop :=
  b.header = none ∨ ∃ hd, b.header = some hd ∧ hd.height = none

/-- The net contribution of one resolved transaction to
`calculateBalance a`. -/
def contrib (a : String) (tx : Tx) : Int :=
  (if tx.toAddress = some a then tx.amount.getD 0 else 0) +
    (if tx.fromAddress = some a then -tx.amount.getD 0 - tx.fee.getD 0 else 0)

/-- The per-id step of `calculateBalance` applied to a resolved lookup. -/
def resolveStep (a : String) (b : Int) (o : Option Tx) : Int :=
  match o with
  | none => b
  | some tx =>
    let b1 := if tx.toAddress = some a then b + tx.amount.getD 0 else b
    if tx.fromAddress = some a then b1 - tx.amount.getD 0 - tx.fee.getD 0 else b1

/-! ## Concrete fixtures for scenarios, witnesses and counterexamples -/

/-- A transaction with a present id crediting 5 to `alice`. -/
def txAlice : Tx :=
  { id := some "t1", txType := some "transfer", fromAddress := none
    toAddress := some "alice", amount := some 5, fee := some 0, timestamp := some 0 }

/-- A self-send from and to `bob`. -/
def txSelf : Tx :=
  { id := some "s1", txType := some "transfer", fromAddress := some "bob"
    toAddress := some "bob", amount := some 3, fee := some 1, timestamp := some 0 }

/-- A transaction with no id at all. -/
def txNoId : Tx :=
  { id := none, txType := none, fromAddress := some "bob"
    toAddress := some "alice", amount := some 9, fee := some 0, timestamp := none }

/-- A block at height 1 with hash `h1` and no transactions. -/
def blockH1 : Block :=
  { hash := some "h1"
    header := some { height := some 1, index := none, timestamp := none
                     previousHash := none, merkleRoot := none }
    transactions := some [], previousHash := none }

/-- A second, distinct block that also has height 1. -/
def blockH1b : Block :=
  { hash := some "h2"
    header := some { height := some 1, index := none, timestamp := none
                     previousHash := none, merkleRoot := none }
    transactions := none, previousHash := none }

/-- A block with an absent hash and header. -/
def blockNoHash : Block :=
  { hash := none, header := none, transactions := none, previousHash := none }

/-- A sync request asking for zero blocks above height 0. -/
def reqZero : SyncRequest :=
  { lastKnownBlockHeight := some 0, userAddress := none, requestedBlocks := some 0 }

/-- A sync request asking for one block above height 0. -/
def reqOne : SyncRequest :=
  { lastKnownBlockHeight := some 0, userAddress := none, requestedBlocks := some 1 }

/-- A sync request with every field absent. -/
def reqNone : SyncRequest :=
  { lastKnownBlockHeight := none, userAddress := none, requestedBlocks := none }

/-! ## Association-list (JS `Map`) lemmas -/

theorem jsMapGet_set_self {α β : Type} [DecidableEq α] (m : List (α × β)) (k : α) (v : β) :
    jsMapGet (jsMapSet m k v) k = some v := by
  induction m with
  | nil => simp [jsMapGet, jsMapSet]
  | cons kv rest ih =>
    by_cases h : kv.1 = k
    · simp [jsMapGet, jsMapSet, h]
    · simp [jsMapGet, jsMapSet, h, ih]

theorem jsMapGet_set_ne {α β : Type} [DecidableEq α] (m : List (α × β)) (k k' : α) (v : β)
    (h : k' ≠ k) : jsMapGet (jsMapSet m k v) k' = jsMapGet m k' := by
  induction m with
  | nil => simp [jsMapGet, jsMapSet, Ne.symm h]
  | cons kv rest ih =>
    by_cases hk : kv.1 = k
    · subst hk
      simp [jsMapGet, jsMapSet, Ne.symm h]
    · by_cases hk' : kv.1 = k'
      · simp [jsMapGet, jsMapSet, hk, hk', h]
      · simp [jsMapGet, jsMapSet, hk, hk', ih]

theorem jsMapGet_eq_none {α β : Type} [DecidableEq α] (m : List (α × β)) (k : α)
    (h : k ∉ m.map Prod.fst) : jsMapGet m k = none := by
  induction m with
  | nil => simp [jsMapGet]
  | cons kv rest ih =>
    simp only [List.map_cons, List.mem_cons] at h
    push_neg at h
    simp [jsMapGet, Ne.symm h.1, ih h.2]

theorem jsMapSet_fresh {α β : Type} [DecidableEq α] (m : List (α × β)) (k : α) (v : β)
    (h : k ∉ m.map Prod.fst) : jsMapSet m k v = m ++ [(k, v)] := by
  induction m with
  | nil => simp [jsMapSet]
  | cons kv rest ih =>
    simp only [List.map_cons, List.mem_cons] at h
    push_neg at h
    simp [jsMapSet, Ne.symm h.1, ih h.2]

theorem jsMapGet_of_mem_nodup {α β : Type} [DecidableEq α] (m : List (α × β)) (k : α) (v : β)
    (hnd : (m.map Prod.fst).Nodup) (h : (k, v) ∈ m) : jsMapGet m k = some v := by
  induction m with
  | nil => simp at h
  | cons kv rest ih =>
    simp only [List.map_cons, List.nodup_cons] at hnd
    rcases List.mem_cons.mp h with h1 | h1
    · subst h1
      simp [jsMapGet]
    · have hne : kv.1 ≠ k := by
        intro he
        exact hnd.1 (he ▸ List.mem_map_of_mem Prod.fst h1)
      simp [jsMapGet, hne, ih hnd.2 h1]

theorem foldl_jsMapSet_append {α β : Type} [DecidableEq α] :
    ∀ (l m : List (α × β)), (((m ++ l).map Prod.fst).Nodup) →
      l.foldl (fun acc kv => jsMapSet acc kv.1 kv.2) m = m ++ l := by
  intro l
  induction l with
  | nil => intro m _; simp
  | cons kv rest ih =>
    intro m hnd
    have hfresh : kv.1 ∉ m.map Prod.fst := by
      rw [List.map_append, List.nodup_append] at hnd
      intro hmem
      exact hnd.2.2 hmem (by simp)
    have hset : jsMapSet m kv.1 kv.2 = m ++ [kv] := by
      rw [jsMapSet_fresh m kv.1 kv.2 hfresh]
    have hnd2 : (((m ++ [kv]) ++ rest).map Prod.fst).Nodup := by
      simpa using hnd
    calc (kv :: rest).foldl (fun acc p => jsMapSet acc p.1 p.2) m
        = rest.foldl (fun acc p => jsMapSet acc p.1 p.2) (m ++ [kv]) := by
          simp [List.foldl_cons, hset]
      _ = (m ++ [kv]) ++ rest := ih (m ++ [kv]) hnd2
      _ = m ++ kv :: rest := by simp

theorem jsMapOfEntries_self {α β : Type} [DecidableEq α] (l : List (α × β))
    (h : (l.map Prod.fst).Nodup) : jsMapOfEntries l = l := by
  have := foldl_jsMapSet_append l [] (by simpa using h)
  simpa [jsMapOfEntries] using this

theorem jsSortInsert_perm {α : Type} (le : α → α → Bool) (x : α) (l : List α) :
    (jsSortInsert le x l).Perm (x :: l) := by
  induction l with
  | nil => simp [jsSortInsert]
  | cons y ys ih =>
    by_cases h : le y x
    · simp only [jsSortInsert, h, if_true]
      exact (ih.cons y).trans (List.Perm.swap x y ys)
    · simp [jsSortInsert, h]

theorem jsSort_fold_perm {α : Type} (le : α → α → Bool) :
    ∀ (l acc : List α),
      (l.foldl (fun acc x => jsSortInsert le x acc) acc).Perm (acc ++ l) := by
  intro l
  induction l with
  | nil => intro acc; simp
  | cons x xs ih =>
    intro acc
    have h1 := ih (jsSortInsert le x acc)
    have h2 : (jsSortInsert le x acc ++ xs).Perm (acc ++ x :: xs) :=
      ((jsSortInsert_perm le x acc).append_right xs).trans List.perm_middle.symm
    simp only [List.foldl_cons]
    exact h1.trans h2

theorem jsSort_perm {α : Type} (le : α → α → Bool) (l : List α) :
    (jsSort le l).Perm l := by
  simpa [jsSort] using jsSort_fold_perm le l []

theorem mem_jsSort {α : Type} (le : α → α → Bool) (l : List α) (a : α) :
    a ∈ jsSort le l ↔ a ∈ l :=
  (jsSort_perm le l).mem_iff

theorem jsSortInsert_pairwise {α : Type} (le : α → α → Bool)
    (htrans : ∀ a b c, le a b = true → le b c = true → le a c = true)
    (htotal : ∀ a b, le a b = true ∨ le b a = true) (x : α) (l : List α)
    (hl : l.Pairwise (fun a b => le a b = true)) :
    (jsSortInsert le x l).Pairwise (fun a b => le a b = true) := by
  induction l with
  | nil => simp [jsSortInsert]
  | cons y ys ih =>
    rcases List.pairwise_cons.mp hl with ⟨hy, hys⟩
    by_cases h : le y x
    · simp only [jsSortInsert, h, if_true]
      refine List.pairwise_cons.mpr ⟨?_, ih hys⟩
      intro z hz
      rcases List.mem_cons.mp ((jsSortInsert_perm le x ys).mem_iff.mp hz) with hz1 | hz1
      · exact hz1 ▸ h
      · exact hy z hz1
    · have hxy : le x y = true := by
        rcases htotal x y with h1 | h1
        · exact h1
        · exact absurd h1 h
      simp only [jsSortInsert, h, if_false]
      refine List.pairwise_cons.mpr ⟨?_, hl⟩
      intro z hz
      rcases List.mem_cons.mp hz with hz1 | hz1
      · exact hz1 ▸ hxy
      · exact htrans x y z hxy (hy z hz1)

theorem jsSort_pairwise {α : Type} (le : α → α → Bool)
    (htrans : ∀ a b c, le a b = true → le b c = true → le a c = true)
    (htotal : ∀ a b, le a b = true ∨ le b a = true) (l : List α) :
    (jsSort le l).Pairwise (fun a b => le a b = true) := by
  suffices h : ∀ (l acc : List α), acc.Pairwise (fun a b => le a b = true) →
      (l.foldl (fun acc x => jsSortInsert le x acc) acc).Pairwise
        (fun a b => le a b = true) by
    exact h l [] (by simp)
  intro l
  induction l with
  | nil => intro acc hacc; simpa using hacc
  | cons x xs ih =>
    intro acc hacc
    simpa using ih (jsSortInsert le x acc)
      (jsSortInsert_pairwise le htrans htotal x acc hacc)

theorem jsSlice_sublist {α : Type} (l : List α) (e : Int) :
    (jsSlice l e).Sublist l := by
  unfold jsSlice
  split <;> exact List.take_sublist _ _

theorem jsSlice_length_le {α : Type} (l : List α) (e : Int) (h : 0 ≤ e) :
    (jsSlice l e).length ≤ e.toNat := by
  unfold jsSlice
  rw [if_neg (not_lt.mpr h)]
  simp [List.length_take]

theorem storeTransaction_blocks (st : Blockchain) (tx : Tx) :
    (storeTransaction st tx).blocks = st.blocks := by
  cases h : tx.id with
  | none => simp [storeTransaction, h]
  | some i =>
    simp only [storeTransaction, h]
    repeat' split
    all_goals rfl

theorem storeTransaction_height (st : Blockchain) (tx : Tx) :
    (storeTransaction st tx).height = st.height := by
  cases h : tx.id with
  | none => simp [storeTransaction, h]
  | some i =>
    simp only [storeTransaction, h]
    repeat' split
    all_goals rfl

theorem foldl_store_blocks (txs : List Tx) (st : Blockchain) :
    (txs.foldl storeTransaction st).blocks = st.blocks := by
  induction txs generalizing st with
  | nil => rfl
  | cons tx rest ih => rw [List.foldl_cons, ih, storeTransaction_blocks]

theorem foldl_store_height (txs : List Tx) (st : Blockchain) :
    (txs.foldl storeTransaction st).height = st.height := by
  induction txs generalizing st with
  | nil => rfl
  | cons tx rest ih => rw [List.foldl_cons, ih, storeTransaction_height]

theorem storeTransaction_noop (st : Blockchain) (tx : Tx)
    (h : truthyId tx = none) : storeTransaction st tx = st := by
  cases hid : tx.id with
  | none => simp [storeTransaction, hid]
  | some i =>
    have hi : i = "" := by
      by_contra hne
      simp [truthyId, hid, hne] at h
    subst hi
    simp [storeTransaction, hid]

theorem transactions_store (st : Blockchain) (tx : Tx) (i : String)
    (hid : tx.id = some i) (hi : i ≠ "") :
    (storeTransaction st tx).transactions = jsMapSet st.transactions i tx := by
  simp only [storeTransaction, hid, if_neg hi]
  cases hF : tx.fromAddress with
  | none =>
    cases hT : tx.toAddress with
    | none => rfl
    | some t =>
      simp only []
      repeat' split
      all_goals rfl
  | some f =>
    cases hT : tx.toAddress with
    | none =>
      simp only []
      repeat' split
      all_goals rfl
    | some t =>
      simp only []
      repeat' split
      all_goals rfl

theorem indexedIds_store (st : Blockchain) (tx : Tx) (i a : String)
    (hid : tx.id = some i) (hi : i ≠ "") (ha : a ≠ "") :
    indexedIds (storeTransaction st tx) a
      = indexedIds st a ++ (if touches a tx then [i] else []) := by
  simp only [storeTransaction, hid, if_neg hi]
  cases hF : tx.fromAddress with
  | none =>
    cases hT : tx.toAddress with
    | none => simp [indexedIds, touches, hF, hT]
    | some t =>
      by_cases ht : t = ""
      · subst ht
        have hta : ("" : String) ≠ a := Ne.symm ha
        simp [indexedIds, touches, hF, hT, hta]
      · by_cases hat : a = t
        · subst hat
          simp [indexedIds, touches, hF, hT, ht, jsMapGet_set_self]
        · simp [indexedIds, touches, hF, hT, ht, hat,
            jsMapGet_set_ne _ _ _ _ hat, Ne.symm hat]
  | some f =>
    by_cases hf : f = ""
    · subst hf
      have hfa : ("" : String) ≠ a := Ne.symm ha
      cases hT : tx.toAddress with
      | none => simp [indexedIds, touches, hF, hT, hfa]
      | some t =>
        by_cases ht : t = ""
        · subst ht
          simp [indexedIds, touches, hF, hT, hfa]
        · by_cases hat : a = t
          · subst hat
            simp [indexedIds, touches, hF, hT, ht, hfa, jsMapGet_set_self]
          · simp [indexedIds, touches, hF, hT, ht, hat, hfa,
              jsMapGet_set_ne _ _ _ _ hat, Ne.symm hat]
    · cases hT : tx.toAddress with
      | none =>
        by_cases haf : a = f
        · subst haf
          simp [indexedIds, touches, hF, hT, hf, jsMapGet_set_self]
        · simp [indexedIds, touches, hF, hT, hf, haf,
            jsMapGet_set_ne _ _ _ _ haf, Ne.symm haf]
      | some t =>
        by_cases ht : t = ""
        · subst ht
          have hta : ("" : String) ≠ a := Ne.symm ha
          by_cases haf : a = f
          · subst haf
            simp [indexedIds, touches, hF, hT, hf, hta, jsMapGet_set_self]
          · simp [indexedIds, touches, hF, hT, hf, haf, hta,
              jsMapGet_set_ne _ _ _ _ haf, Ne.symm haf]
        · by_cases htf : t = f
          · subst htf
            by_cases haf : a = t
            · subst haf
              simp [indexedIds, touches, hF, hT, hf, jsMapGet_set_self]
            · simp [indexedIds, touches, hF, hT, hf, haf,
                jsMapGet_set_ne _ _ _ _ haf, Ne.symm haf]
          · by_cases haf : a = f
            · subst haf
              have hta : t ≠ a := fun he => htf he
              simp [indexedIds, touches, hF, hT, hf, ht, htf, Ne.symm hta,
                jsMapGet_set_self, jsMapGet_set_ne _ _ _ _ hta.symm]
            · by_cases hat : a = t
              · subst hat
                simp [indexedIds, touches, hF, hT, hf, ht, htf, haf, Ne.symm haf,
                  jsMapGet_set_self, jsMapGet_set_ne _ _ _ _ haf]
              · simp [indexedIds, touches, hF, hT, hf, ht, htf, haf, hat,
                  Ne.symm haf, Ne.symm hat,
                  jsMapGet_set_ne _ _ _ _ haf, jsMapGet_set_ne _ _ _ _ hat]

theorem indexedIds_store_blank (st : Blockchain) (tx : Tx) :
    indexedIds (storeTransaction st tx) "" = indexedIds st "" := by
  cases hid : tx.id with
  | none => simp [storeTransaction, hid]
  | some i =>
    by_cases hi : i = ""
    · subst hi; simp [storeTransaction, hid]
    · simp only [storeTransaction, hid, if_neg hi]
      cases hF : tx.fromAddress with
      | none =>
        cases hT : tx.toAddress with
        | none => rfl
        | some t =>
          by_cases ht : t = ""
          · subst ht; rfl
          · simp [ht, indexedIds, jsMapGet_set_ne _ _ _ _ (Ne.symm ht)]
      | some f =>
        by_cases hf : f = ""
        · subst hf
          cases hT : tx.toAddress with
          | none => rfl
          | some t =>
            by_cases ht : t = ""
            · subst ht; rfl
            · simp [ht, indexedIds, jsMapGet_set_ne _ _ _ _ (Ne.symm ht)]
        · cases hT : tx.toAddress with
          | none => simp [hf, indexedIds, jsMapGet_set_ne _ _ _ _ (Ne.symm hf)]
          | some t =>
            by_cases ht : t = ""
            · subst ht; simp [hf, indexedIds, jsMapGet_set_ne _ _ _ _ (Ne.symm hf)]
            · by_cases htf : t = f
              · subst htf
                simp [hf, indexedIds, jsMapGet_set_ne _ _ _ _ (Ne.symm hf)]
              · simp [hf, ht, htf, indexedIds,
                  jsMapGet_set_ne _ _ _ _ (Ne.symm hf), jsMapGet_set_ne _ _ _ _ (Ne.symm ht)]

theorem truthyId_some (tx : Tx) (i : String) (h : truthyId tx = some i) :
    tx.id = some i ∧ i ≠ "" := by
  cases hid : tx.id with
  | none => simp [truthyId, hid] at h
  | some j =>
    by_cases hj : j = ""
    · subst hj; simp [truthyId, hid] at h
    · simp [truthyId, hid, hj] at h
      subst h
      exact ⟨rfl, hj⟩

theorem ledgerInv_empty : LedgerInv emptyChain := by
  refine ⟨by simp [storedKeys, emptyChain], ?_, by simp [indexedIds, emptyChain, jsMapGet]⟩
  intro a _
  simp [indexedIds, emptyChain, jsMapGet]

theorem storeTransaction_inv (st : Blockchain) (tx : Tx) (i : String)
    (hinv : LedgerInv st) (htr : truthyId tx = some i) (hfresh : i ∉ storedKeys st) :
    LedgerInv (storeTransaction st tx) ∧
      storedKeys (storeTransaction st tx) = storedKeys st ++ [i] := by
  obtain ⟨hid, hi⟩ := truthyId_some tx i htr
  have hfresh' : i ∉ st.transactions.map Prod.fst := hfresh
  have htrans : (storeTransaction st tx).transactions = st.transactions ++ [(i, tx)] := by
    rw [transactions_store st tx i hid hi]
    exact jsMapSet_fresh _ _ _ hfresh'
  have hkeys : storedKeys (storeTransaction st tx) = storedKeys st ++ [i] := by
    simp [storedKeys, htrans]
  refine ⟨⟨?_, ?_, ?_⟩, hkeys⟩
  · rw [hkeys]
    refine List.Nodup.append hinv.1 (List.nodup_singleton i) ?_
    intro a ha hb
    simp only [List.mem_singleton] at hb
    subst hb
    exact hfresh ha
  · intro a ha
    rw [indexedIds_store st tx i a hid hi ha, hinv.2.1 a ha, htrans]
    rw [List.filter_append, List.map_append]
    congr 1
    by_cases hto : touches a tx <;> simp [List.filter_cons, hto]
  · rw [indexedIds_store_blank st tx]
    exact hinv.2.2

theorem foldl_store_inv (txs : List Tx) (st : Blockchain) (hinv : LedgerInv st)
    (hnd : (storedKeys st ++ txs.filterMap truthyId).Nodup) :
    LedgerInv (txs.foldl storeTransaction st) ∧
      storedKeys (txs.foldl storeTransaction st) = storedKeys st ++ txs.filterMap truthyId := by
  induction txs generalizing st with
  | nil => simpa using hinv
  | cons tx rest ih =>
    cases htr : truthyId tx with
    | none =>
      rw [List.foldl_cons, storeTransaction_noop st tx htr]
      have hnd' : (storedKeys st ++ rest.filterMap truthyId).Nodup := by
        simpa [List.filterMap_cons, htr] using hnd
      obtain ⟨h1, h2⟩ := ih st hinv hnd'
      exact ⟨h1, by simpa [List.filterMap_cons, htr] using h2⟩
    | some i =>
      have hnd0 : (storedKeys st ++ i :: rest.filterMap truthyId).Nodup := by
        simpa [List.filterMap_cons, htr] using hnd
      have hfresh : i ∉ storedKeys st := by
        rw [List.nodup_append] at hnd0
        exact fun hmem => hnd0.2.2 hmem (by simp)
      obtain ⟨hinv', hkeys'⟩ := storeTransaction_inv st tx i hinv htr hfresh
      have hnd' : (storedKeys (storeTransaction st tx) ++ rest.filterMap truthyId).Nodup := by
        rw [hkeys']
        simpa [List.append_assoc] using hnd0
      rw [List.foldl_cons]
      obtain ⟨h1, h2⟩ := ih (storeTransaction st tx) hinv' hnd'
      refine ⟨h1, ?_⟩
      rw [h2, hkeys']
      simp [List.filterMap_cons, htr, List.append_assoc]

theorem applyOp_inv (st : Blockchain) (op : Op) (hinv : LedgerInv st)
    (hnd : (storedKeys st ++ opIds op).Nodup) :
    LedgerInv (applyOp st op) ∧
      ∃ l, storedKeys (applyOp st op) = storedKeys st ++ l ∧ l.Sublist (opIds op) := by
  cases op with
  | txB tx =>
    cases htr : truthyId tx with
    | none =>
      rw [applyOp, storeTransaction_noop st tx htr]
      exact ⟨hinv, [], by simp, List.nil_sublist _⟩
    | some i =>
      have hfresh : i ∉ storedKeys st := by
        have hnd0 : (storedKeys st ++ [i]).Nodup := by
          simpa [opIds, htr] using hnd
        rw [List.nodup_append] at hnd0
        exact fun hmem => hnd0.2.2 hmem (by simp)
      obtain ⟨h1, h2⟩ := storeTransaction_inv st tx i hinv htr hfresh
      exact ⟨h1, [i], h2, by simp [opIds, htr]⟩
  | blkB b =>
    by_cases hhas : jsMapHas st.blocks b.hash
    · have heq : applyOp st (Op.blkB b) = st := by
        simp [applyOp, handleBlockBroadcast, hhas]
      rw [heq]
      exact ⟨hinv, [], by simp, List.nil_sublist _⟩
    · have heq : applyOp st (Op.blkB b) =
          (b.transactions.getD []).foldl storeTransaction
            { st with blocks := jsMapSet st.blocks b.hash b
                      height := max st.height (blockHeight b) } := by
        simp [applyOp, handleBlockBroadcast, hhas]
      rw [heq]
      have hinv1 : LedgerInv
          { st with blocks := jsMapSet st.blocks b.hash b
                    height := max st.height (blockHeight b) } := hinv
      have hnd1 : (storedKeys
          { st with blocks := jsMapSet st.blocks b.hash b
                    height := max st.height (blockHeight b) } ++
            (b.transactions.getD []).filterMap truthyId).Nodup := by
        simpa [storedKeys, opIds] using hnd
      obtain ⟨h1, h2⟩ := foldl_store_inv (b.transactions.getD []) _ hinv1 hnd1
      exact ⟨h1, (b.transactions.getD []).filterMap truthyId, h2, by simp [opIds]⟩

theorem allIds_cons (op : Op) (rest : List Op) :
    allIds (op :: rest) = opIds op ++ allIds rest := by
  simp [allIds]

theorem applyOps_inv (ops : List Op) (st : Blockchain) (hinv : LedgerInv st)
    (hnd : (storedKeys st ++ allIds ops).Nodup) : LedgerInv (applyOps st ops) := by
  induction ops generalizing st with
  | nil => simpa [applyOps] using hinv
  | cons op rest ih =>
    have hnd1 : (storedKeys st ++ opIds op).Nodup := by
      refine List.Nodup.sublist ?_ hnd
      rw [allIds_cons, ← List.append_assoc]
      exact List.sublist_append_left _ _
    obtain ⟨hinv', l, hkeys, hsub⟩ := applyOp_inv st op hinv hnd1
    have hstep : applyOps st (op :: rest) = applyOps (applyOp st op) rest := by
      simp [applyOps]
    rw [hstep]
    refine ih (applyOp st op) hinv' ?_
    rw [hkeys, List.append_assoc]
    refine List.Nodup.sublist ?_ hnd
    rw [allIds_cons]
    exact ((hsub.append_right _).append_left _)

theorem calculateBalance_eq_fold (st : Blockchain) (a : String) :
    calculateBalance st a =
      (indexedIds st a).foldl (fun b k => resolveStep a b (jsMapGet st.transactions k)) 0 := rfl

theorem resolveStep_some (a : String) (b : Int) (tx : Tx) :
    resolveStep a b (some tx) = b + contrib a tx := by
  by_cases h1 : tx.toAddress = some a <;> by_cases h2 : tx.fromAddress = some a <;>
    simp [resolveStep, contrib, h1, h2] <;> ring

theorem foldl_lookup_map (m : List (String × Tx)) (a : String)
    (L : List (String × Tx)) (hL : ∀ kv ∈ L, jsMapGet m kv.1 = some kv.2) (init : Int) :
    (L.map Prod.fst).foldl (fun b k => resolveStep a b (jsMapGet m k)) init
      = L.foldl (fun b kv => resolveStep a b (some kv.2)) init := by
  induction L generalizing init with
  | nil => rfl
  | cons kv rest ih =>
    simp only [List.map_cons, List.foldl_cons]
    rw [hL kv (by simp)]
    exact ih (fun kv' h => hL kv' (by simp [h])) _

theorem foldl_add_map_sum (f : (String × Tx) → Int) (L : List (String × Tx)) (init : Int) :
    L.foldl (fun b kv => b + f kv) init = init + (L.map f).sum := by
  induction L generalizing init with
  | nil => simp
  | cons kv rest ih => simp [List.foldl_cons, ih, add_assoc]

theorem contrib_eq_zero (a : String) (tx : Tx) (h : touches a tx = false) :
    contrib a tx = 0 := by
  simp only [touches, Bool.or_eq_false_iff, decide_eq_false_iff_not] at h
  simp [contrib, h.1, h.2]

theorem sum_filter_touches (a : String) (l : List (String × Tx)) :
    ((l.filter (fun kv => touches a kv.2)).map (fun kv => contrib a kv.2)).sum
      = (l.map (fun kv => contrib a kv.2)).sum := by
  induction l with
  | nil => simp
  | cons kv rest ih =>
    cases h : touches a kv.2 with
    | true => simp [List.filter_cons, h, ih]
    | false => simp [List.filter_cons, h, ih, contrib_eq_zero a kv.2 h]

theorem sum_map_split (f g : (String × Tx) → Int) (l : List (String × Tx)) :
    (l.map (fun kv => f kv + g kv)).sum = (l.map f).sum + (l.map g).sum := by
  induction l with
  | nil => simp
  | cons kv rest ih => simp [ih]; ring

theorem sum_if_to (a : String) (l : List (String × Tx)) :
    (l.map (fun kv => if kv.2.toAddress = some a then kv.2.amount.getD 0 else 0)).sum
      = ((l.filter (fun kv => decide (kv.2.toAddress = some a))).map
          (fun kv => kv.2.amount.getD 0)).sum := by
  induction l with
  | nil => simp
  | cons kv rest ih =>
    by_cases h : kv.2.toAddress = some a <;> simp [List.filter_cons, h, ih]

theorem sum_if_from (a : String) (l : List (String × Tx)) :
    (l.map (fun kv => if kv.2.fromAddress = some a then
        -kv.2.amount.getD 0 - kv.2.fee.getD 0 else 0)).sum
      = -((l.filter (fun kv => decide (kv.2.fromAddress = some a))).map
          (fun kv => kv.2.amount.getD 0 + kv.2.fee.getD 0)).sum := by
  induction l with
  | nil => simp
  | cons kv rest ih =>
    by_cases h : kv.2.fromAddress = some a
    · simp [List.filter_cons, h, ih]
      ring
    · simp [List.filter_cons, h, ih]

theorem sum_contrib_filter (a : String) (l : List (String × Tx)) :
    ((l.filter (fun kv => touches a kv.2)).map (fun kv => contrib a kv.2)).sum
      = ((l.filter (fun kv => decide (kv.2.toAddress = some a))).map
          (fun kv => kv.2.amount.getD 0)).sum
        - ((l.filter (fun kv => decide (kv.2.fromAddress = some a))).map
            (fun kv => kv.2.amount.getD 0 + kv.2.fee.getD 0)).sum := by
  rw [sum_filter_touches a l]
  have hsplit : (l.map (fun kv => contrib a kv.2)).sum
      = (l.map (fun kv => if kv.2.toAddress = some a then kv.2.amount.getD 0 else 0)).sum
        + (l.map (fun kv => if kv.2.fromAddress = some a then
            -kv.2.amount.getD 0 - kv.2.fee.getD 0 else 0)).sum := by
    rw [← sum_map_split]
    simp only [contrib]
  rw [hsplit, sum_if_to a l, sum_if_from a l]
  ring

theorem calcBalance_of_inv (st : Blockchain) (hinv : LedgerInv st) (a : String)
    (ha : a ≠ "") : calculateBalance st a = specBalance st a := by
  have hidx := hinv.2.1 a ha
  have hmemL : ∀ kv ∈ st.transactions.filter (fun kv => touches a kv.2),
      jsMapGet st.transactions kv.1 = some kv.2 := by
    intro kv hkv
    have hmem : kv ∈ st.transactions := List.mem_of_mem_filter hkv
    exact jsMapGet_of_mem_nodup st.transactions kv.1 kv.2 hinv.1 hmem
  rw [calculateBalance_eq_fold, hidx,
    foldl_lookup_map st.transactions a _ hmemL 0]
  simp only [resolveStep_some]
  rw [foldl_add_map_sum (fun kv => contrib a kv.2) _ 0, zero_add,
    sum_contrib_filter a st.transactions]
  rfl

theorem jsMapHas_false_not_mem {α β : Type} [DecidableEq α] (m : List (α × β)) (k : α)
    (h : jsMapHas m k = false) : k ∉ m.map Prod.fst := by
  induction m with
  | nil => simp
  | cons kv rest ih =>
    simp only [jsMapHas, jsMapGet] at h
    by_cases hk : kv.1 = k
    · rw [if_pos hk] at h
      simp at h
    · rw [if_neg hk] at h
      simp only [List.map_cons, List.mem_cons]
      push_neg
      exact ⟨Ne.symm hk, ih h⟩

theorem blockHeight_of_absent (b : Block) (h : heightAbsent b) : blockHeight b = 0 := by
  rcases h with h | ⟨hd, hhd, hh⟩
  · simp [blockHeight, h]
  · simp [blockHeight, hhd, hh]

theorem applyOps_height_nonneg (ops : List Op) (st : Blockchain) (h : 0 ≤ st.height) :
    0 ≤ (applyOps st ops).height := by
  induction ops generalizing st with
  | nil => simpa [applyOps] using h
  | cons op rest ih =>
    have hstep : 0 ≤ (applyOp st op).height := by
      cases op with
      | txB tx =>
        rw [applyOp, storeTransaction_height]
        exact h
      | blkB b =>
        by_cases hhas : jsMapHas st.blocks b.hash
        · simpa [applyOp, handleBlockBroadcast, hhas] using h
        · have heq : (applyOp st (Op.blkB b)).height = max st.height (blockHeight b) := by
            simp [applyOp, handleBlockBroadcast, hhas, foldl_store_height]
          rw [heq]
          exact le_trans h (le_max_left _ _)
    have hrest := ih (applyOp st op) hstep
    simpa [applyOps] using hrest

theorem reachable_height_nonneg (st : Blockchain) (h : Reachable st) : 0 ≤ st.height := by
  obtain ⟨ops, hops⟩ := h
  rw [← hops]
  exact applyOps_height_nonneg ops emptyChain (by simp [emptyChain])

theorem handleBlockBroadcast_of_has (st : Blockchain) (b : Block)
    (h : jsMapHas st.blocks b.hash = true) : handleBlockBroadcast st b = (st, false) := by
  simp [handleBlockBroadcast, h]

/-- C1 (amended): for every ledger state reachable by handler operations
in which no transaction id is offered for storage twice, and every
nonempty address `a`, `calculateBalance a` equals the sum of `amount`
over stored transactions with `toAddress == a` minus the sum of
`amount + fee` over stored transactions with `fromAddress == a`. -/
theorem calculateBalance_matches_spec (ops : List Op) (a : String) (ha : a ≠ "")
    (hids : (allIds ops).Nodup) :
    calculateBalance (applyOps emptyChain ops) a
      = specBalance (applyOps emptyChain ops) a := by
  have hinv := applyOps_inv ops emptyChain ledgerInv_empty
    (by simpa [storedKeys, emptyChain] using hids)
  exact calcBalance_of_inv _ hinv a ha

/-- Witness for C1: a single stored credit of 5 to `alice` gives
balance 5 on both sides. -/
theorem calculateBalance_matches_spec_witness :
    ("alice" : String) ≠ "" ∧ (allIds [Op.txB txAlice]).Nodup ∧
    calculateBalance (applyOps emptyChain [Op.txB txAlice]) "alice"
      = specBalance (applyOps emptyChain [Op.txB txAlice]) "alice" :=
  ⟨by decide, by decide,
    calculateBalance_matches_spec [Op.txB txAlice] "alice" (by decide) (by decide)⟩

/-- C1 counterexample: broadcasting the same transaction twice reaches a
state where `calculateBalance` double-counts (10) while the spec's sum
over transactions currently in the store is 5. -/
theorem calculateBalance_spec_counterexample :
    Reachable (applyOps emptyChain [Op.txB txAlice, Op.txB txAlice]) ∧
    calculateBalance (applyOps emptyChain [Op.txB txAlice, Op.txB txAlice]) "alice"
      ≠ specBalance (applyOps emptyChain [Op.txB txAlice, Op.txB txAlice]) "alice" :=
  ⟨⟨[Op.txB txAlice, Op.txB txAlice], rfl⟩, by decide⟩

/-- C2: a `blockBroadcast` whose hash is already stored leaves the state
unchanged and relays nothing; from a state without the hash, two
sequential broadcasts of the same block relay exactly once (the second
is a dedup no-op). -/
theorem blockBroadcast_dedup (st : Blockchain) (b : Block) :
    (jsMapHas st.blocks b.hash = true → handleBlockBroadcast st b = (st, false)) ∧
    (jsMapHas st.blocks b.hash = false →
      (handleBlockBroadcast st b).2 = true ∧
      handleBlockBroadcast (handleBlockBroadcast st b).1 b
        = ((handleBlockBroadcast st b).1, false)) := by
  constructor
  · intro h
    exact handleBlockBroadcast_of_has st b h
  · intro h
    have h2 : (handleBlockBroadcast st b).2 = true := by
      simp [handleBlockBroadcast, h]
    refine ⟨h2, ?_⟩
    have hblocks : (handleBlockBroadcast st b).1.blocks = jsMapSet st.blocks b.hash b := by
      simp [handleBlockBroadcast, h, foldl_store_blocks]
    have hhas : jsMapHas (handleBlockBroadcast st b).1.blocks b.hash = true := by
      rw [hblocks]
      simp [jsMapHas, jsMapGet_set_self]
    exact handleBlockBroadcast_of_has _ b hhas

/-- Witness for C2 at concrete inputs: a stored block is deduplicated,
and a fresh block relays once across two broadcasts. -/
theorem blockBroadcast_dedup_witness :
    (handleBlockBroadcast (applyOps emptyChain [Op.blkB blockH1]) blockH1
        = (applyOps emptyChain [Op.blkB blockH1], false)) ∧
    ((handleBlockBroadcast emptyChain blockH1).2 = true ∧
      handleBlockBroadcast (handleBlockBroadcast emptyChain blockH1).1 blockH1
        = ((handleBlockBroadcast emptyChain blockH1).1, false)) :=
  ⟨(blockBroadcast_dedup (applyOps emptyChain [Op.blkB blockH1]) blockH1).1 (by decide),
   (blockBroadcast_dedup emptyChain blockH1).2 (by decide)⟩

/-- C3 (amended): response blocks are sorted non-decreasing by height
(equal heights can repeat, so not strictly ascending), every included
block's height exceeds the effective cursor `lastKnownBlockHeight || 0`,
and for a nonnegative `requestedBlocks` the length is bounded by
`requestedBlocks || 100` (absent or `0` means 100). -/
theorem syncBlocks_sorted_bounded (st : Blockchain) (req : SyncRequest)
    (hreq : ∀ n, req.requestedBlocks = some n → 0 ≤ n) :
    List.Chain' (fun x y => blockHeight x ≤ blockHeight y) (syncBlocks st req) ∧
    (∀ b ∈ syncBlocks st req, jsOrInt req.lastKnownBlockHeight 0 < blockHeight b) ∧
    (syncBlocks st req).length ≤ (jsOrInt req.requestedBlocks 100).toNat := by
  have htrans : ∀ x y z : Block, decide (blockHeight x ≤ blockHeight y) = true →
      decide (blockHeight y ≤ blockHeight z) = true →
      decide (blockHeight x ≤ blockHeight z) = true := by
    intro x y z h1 h2
    simp only [decide_eq_true_eq] at h1 h2 ⊢
    exact le_trans h1 h2
  have htotal : ∀ x y : Block, decide (blockHeight x ≤ blockHeight y) = true ∨
      decide (blockHeight y ≤ blockHeight x) = true := by
    intro x y
    simp only [decide_eq_true_eq]
    exact le_total _ _
  have hsync : syncBlocks st req
      = jsSlice (jsSort (fun a b => decide (blockHeight a ≤ blockHeight b))
          ((st.blocks.map Prod.snd).filter
            (fun b => decide (jsOrInt req.lastKnownBlockHeight 0 < blockHeight b))))
          (jsOrInt req.requestedBlocks 100) := rfl
  refine ⟨?_, ?_, ?_⟩
  · rw [hsync]
    have hp := (jsSort_pairwise _ htrans htotal
      ((st.blocks.map Prod.snd).filter
        (fun b => decide (jsOrInt req.lastKnownBlockHeight 0 < blockHeight b)))).sublist
      (jsSlice_sublist _ (jsOrInt req.requestedBlocks 100))
    exact (hp.imp (fun h => by simpa using h)).chain'
  · intro b hb
    rw [hsync] at hb
    have hb2 := (mem_jsSort _ _ _).mp ((jsSlice_sublist _ _).subset hb)
    have hb3 := List.of_mem_filter hb2
    simpa using hb3
  · rw [hsync]
    apply jsSlice_length_le
    cases hrb : req.requestedBlocks with
    | none => simp [jsOrInt]
    | some n =>
      have hn := hreq n hrb
      by_cases h0 : n = 0
      · simp [jsOrInt, h0]
      · simp only [jsOrInt, if_neg h0]
        exact hn

/-- Witness for C3 at a concrete store of three heights and
`requestedBlocks = 1`. -/
theorem syncBlocks_sorted_bounded_witness :
    List.Chain' (fun x y => blockHeight x ≤ blockHeight y)
      (syncBlocks (applyOps emptyChain [Op.blkB blockH1]) reqOne) ∧
    (∀ b ∈ syncBlocks (applyOps emptyChain [Op.blkB blockH1]) reqOne,
      jsOrInt reqOne.lastKnownBlockHeight 0 < blockHeight b) ∧
    (syncBlocks (applyOps emptyChain [Op.blkB blockH1]) reqOne).length
      ≤ (jsOrInt reqOne.requestedBlocks 100).toNat :=
  syncBlocks_sorted_bounded (applyOps emptyChain [Op.blkB blockH1]) reqOne
    (by intro n hn; simp [reqOne] at hn; omega)

/-- C3 counterexample: with two stored blocks both at height 1 and
`requestedBlocks = 0`, the response ([h1-block, h2-block]) is not
strictly ascending by height and has more than `requestedBlocks`
entries. -/
theorem syncBlocks_counterexample :
    ¬ (List.Chain' (fun x y => blockHeight x < blockHeight y)
          (syncBlocks (applyOps emptyChain [Op.blkB blockH1, Op.blkB blockH1b]) reqZero) ∧
        (∀ b ∈ syncBlocks (applyOps emptyChain [Op.blkB blockH1, Op.blkB blockH1b]) reqZero,
          jsOrInt reqZero.lastKnownBlockHeight 0 < blockHeight b) ∧
        (syncBlocks (applyOps emptyChain [Op.blkB blockH1, Op.blkB blockH1b]) reqZero).length
          ≤ (0 : Int).toNat) := by
  intro h
  exact absurd h.2.2 (by decide)

/-- C4 (amended): in every run of handler operations in which no
transaction id is offered for storage twice, every address's index is
duplicate-free, so each id appears at most once (per role and overall). -/
theorem index_nodup_of_unique_ids (ops : List Op) (a : String)
    (hids : (allIds ops).Nodup) :
    (indexedIds (applyOps emptyChain ops) a).Nodup := by
  have hinv := applyOps_inv ops emptyChain ledgerInv_empty
    (by simpa [storedKeys, emptyChain] using hids)
  by_cases ha : a = ""
  · subst ha
    rw [hinv.2.2]
    exact List.nodup_nil
  · rw [hinv.2.1 a ha]
    exact List.Nodup.sublist ((List.filter_sublist _).map Prod.fst) hinv.1

/-- Witness for C4: after a single broadcast of `txAlice`, `alice`'s
index is duplicate-free. -/
theorem index_nodup_of_unique_ids_witness :
    (allIds [Op.txB txAlice]).Nodup ∧
    (indexedIds (applyOps emptyChain [Op.txB txAlice]) "alice").Nodup :=
  ⟨by decide, index_nodup_of_unique_ids [Op.txB txAlice] "alice" (by decide)⟩

/-- C4 counterexample: broadcasting the same transaction id twice (a
legal operation sequence) makes `t1` appear twice in `alice`'s index in
the same (receiver) role. -/
theorem index_once_counterexample :
    txAlice.fromAddress ≠ some "alice" ∧ txAlice.toAddress = some "alice" ∧
    ¬ ((indexedIds (applyOps emptyChain [Op.txB txAlice, Op.txB txAlice]) "alice").count "t1"
        ≤ 1) := by
  refine ⟨by decide, by decide, by decide⟩

/-- C5: loading a saved snapshot reproduces the block table, transaction
table, address index and height exactly (for states whose components
have duplicate-free keys, as every state built from JS `Map`s has). -/
theorem snapshot_roundtrip (st : Blockchain) (now : Int)
    (hb : (st.blocks.map Prod.fst).Nodup)
    (ht : (st.transactions.map Prod.fst).Nodup)
    (ha : (st.txByAddress.map Prod.fst).Nodup) :
    (loadBlockchain (saveBlockchain st now)).blocks = st.blocks ∧
    (loadBlockchain (saveBlockchain st now)).transactions = st.transactions ∧
    (loadBlockchain (saveBlockchain st now)).txByAddress = st.txByAddress ∧
    (loadBlockchain (saveBlockchain st now)).height = st.height :=
  ⟨jsMapOfEntries_self st.blocks hb, jsMapOfEntries_self st.transactions ht,
    jsMapOfEntries_self st.txByAddress ha, rfl⟩

/-- Witness for C5 on the concrete one-transaction state. -/
theorem snapshot_roundtrip_witness :
    ((applyOps emptyChain [Op.txB txAlice]).blocks.map Prod.fst).Nodup ∧
    ((applyOps emptyChain [Op.txB txAlice]).transactions.map Prod.fst).Nodup ∧
    ((applyOps emptyChain [Op.txB txAlice]).txByAddress.map Prod.fst).Nodup ∧
    ((loadBlockchain (saveBlockchain (applyOps emptyChain [Op.txB txAlice]) 42)).blocks
        = (applyOps emptyChain [Op.txB txAlice]).blocks ∧
      (loadBlockchain (saveBlockchain (applyOps emptyChain [Op.txB txAlice]) 42)).transactions
        = (applyOps emptyChain [Op.txB txAlice]).transactions ∧
      (loadBlockchain (saveBlockchain (applyOps emptyChain [Op.txB txAlice]) 42)).txByAddress
        = (applyOps emptyChain [Op.txB txAlice]).txByAddress ∧
      (loadBlockchain (saveBlockchain (applyOps emptyChain [Op.txB txAlice]) 42)).height
        = (applyOps emptyChain [Op.txB txAlice]).height) :=
  ⟨by decide, by decide, by decide,
    snapshot_roundtrip (applyOps emptyChain [Op.txB txAlice]) 42
      (by decide) (by decide) (by decide)⟩

/-- C6 (amended): a transaction without a truthy id is a silent no-op;
a block with an absent hash is NOT a no-op: if no absent-hash block is
stored yet it is inserted under the absent key (the block table grows),
and only subsequent hashless blocks are deduplicated against it. -/
theorem missing_fields_behavior (st : Blockchain) (tx : Tx) (b : Block)
    (htx : truthyId tx = none) (hb : b.hash = none) :
    storeTransaction st tx = st ∧
    (jsMapHas st.blocks none = true → handleBlockBroadcast st b = (st, false)) ∧
    (jsMapHas st.blocks none = false →
      (handleBlockBroadcast st b).1.blocks = st.blocks ++ [(none, b)]) := by
  refine ⟨storeTransaction_noop st tx htx, ?_, ?_⟩
  · intro h
    apply handleBlockBroadcast_of_has
    rw [hb]
    exact h
  · intro h
    have hfresh : (none : Option String) ∉ st.blocks.map Prod.fst :=
      jsMapHas_false_not_mem st.blocks none h
    have hhas : jsMapHas st.blocks b.hash = false := by rw [hb]; exact h
    simp [handleBlockBroadcast, hhas, foldl_store_blocks, hb, h,
      jsMapSet_fresh st.blocks none b hfresh]

/-- Witness for C6 at concrete inputs. -/
theorem missing_fields_behavior_witness :
    storeTransaction emptyChain txNoId = emptyChain ∧
    (jsMapHas emptyChain.blocks none = true →
      handleBlockBroadcast emptyChain blockNoHash = (emptyChain, false)) ∧
    (jsMapHas emptyChain.blocks none = false →
      (handleBlockBroadcast emptyChain blockNoHash).1.blocks
        = emptyChain.blocks ++ [(none, blockNoHash)]) :=
  missing_fields_behavior emptyChain txNoId blockNoHash (by decide) (by decide)

/-- C6 counterexample: broadcasting a block with no hash into the empty
store is not a no-op — the ledger state changes (the block is stored
under the absent key). -/
theorem storeBlock_missing_hash_counterexample :
    blockNoHash.hash = none ∧
    (handleBlockBroadcast emptyChain blockNoHash).1 ≠ emptyChain := by
  refine ⟨by decide, by decide⟩

/-- C7: a transaction with a truthy id whose sender and receiver are the
same nonempty address `a` is appended to `a`'s index exactly once, not
twice. -/
theorem selfSend_indexed_once (st : Blockchain) (tx : Tx) (i a : String)
    (hid : tx.id = some i) (hi : i ≠ "") (hf : tx.fromAddress = some a)
    (_ht : tx.toAddress = some a) (ha : a ≠ "") (hnew : i ∉ indexedIds st a) :
    indexedIds (storeTransaction st tx) a = indexedIds st a ++ [i] ∧
    (indexedIds (storeTransaction st tx) a).count i = 1 := by
  have happ := indexedIds_store st tx i a hid hi ha
  have htouch : touches a tx = true := by simp [touches, hf]
  rw [htouch, if_pos rfl] at happ
  refine ⟨happ, ?_⟩
  rw [happ, List.count_append, List.count_eq_zero.mpr hnew]
  simp

/-- Witness for C7: the self-send `txSelf` lands once in `bob`'s index. -/
theorem selfSend_indexed_once_witness :
    indexedIds (storeTransaction emptyChain txSelf) "bob"
        = indexedIds emptyChain "bob" ++ ["s1"] ∧
    (indexedIds (storeTransaction emptyChain txSelf) "bob").count "s1" = 1 :=
  selfSend_indexed_once emptyChain txSelf "s1" "bob"
    (by decide) (by decide) (by decide) (by decide) (by decide) (by decide)

/-- C8: handling a sync request never mutates the ledger store: block
table, transaction table, address index and height are unchanged. -/
theorem syncRequest_readonly (st : Blockchain) (req : SyncRequest) :
    (handleSyncRequest st req).1.blocks = st.blocks ∧
    (handleSyncRequest st req).1.transactions = st.transactions ∧
    (handleSyncRequest st req).1.txByAddress = st.txByAddress ∧
    (handleSyncRequest st req).1.height = st.height :=
  ⟨rfl, rfl, rfl, rfl⟩

/-- C9: genesis bootstrap with the five allocation buckets yields height
0, exactly five stored transactions, and treasury balance 100000000
(the SHA-256 digests and the timestamp are opaque parameters). -/
theorem genesis_bootstrap (h mr : String) (ts : Int) :
    (createGenesisBlock h mr ts).height = 0 ∧
    (createGenesisBlock h mr ts).transactions.length = 5 ∧
    calculateBalance (createGenesisBlock h mr ts) "treasury" = 100000000 :=
  ⟨rfl, rfl, rfl⟩

/-- C10: a block whose header (or its height field) is absent is treated
as height 0: its effective height is 0, broadcasting it never raises the
height of a reachable state, and it never appears in a sync response
whose effective cursor is at least 0. -/
theorem absent_height_block (st : Blockchain) (b : Block) (req : SyncRequest)
    (hst : Reachable st) (hb : heightAbsent b)
    (hcur : 0 ≤ jsOrInt req.lastKnownBlockHeight 0) :
    blockHeight b = 0 ∧
    (handleBlockBroadcast st b).1.height = st.height ∧
    b ∉ syncBlocks st req := by
  have h0 := blockHeight_of_absent b hb
  refine ⟨h0, ?_, ?_⟩
  · by_cases hhas : jsMapHas st.blocks b.hash
    · rw [handleBlockBroadcast_of_has st b hhas]
    · have hnn := reachable_height_nonneg st hst
      simp [handleBlockBroadcast, hhas, foldl_store_height, h0, max_eq_left hnn]
  · intro hmem
    have hsync : syncBlocks st req
        = jsSlice (jsSort (fun a b => decide (blockHeight a ≤ blockHeight b))
            ((st.blocks.map Prod.snd).filter
              (fun x => decide (jsOrInt req.lastKnownBlockHeight 0 < blockHeight x))))
            (jsOrInt req.requestedBlocks 100) := rfl
    rw [hsync] at hmem
    have hb2 := (mem_jsSort _ _ _).mp ((jsSlice_sublist _ _).subset hmem)
    have hb3 := List.of_mem_filter hb2
    simp only [decide_eq_true_eq, h0] at hb3
    omega

/-- Witness for C10: the empty store, a headerless block and an
all-absent request. -/
theorem absent_height_block_witness :
    blockHeight blockNoHash = 0 ∧
    (handleBlockBroadcast emptyChain blockNoHash).1.height = emptyChain.height ∧
    blockNoHash ∉ syncBlocks emptyChain reqNone :=
  absent_height_block emptyChain blockNoHash reqNone
    ⟨[], rfl⟩ (Or.inl rfl) (by decide)
